import Mathlib

/-!
# Axis-aligned bounding box hierarchy (`igl::AABB`)

A shallow embedding of `include/igl/AABB.h` and a verification of its ownership
operations (constructors, `swap`, `operator=`, `deinit`) together with the
construction, serialization and query algorithms the header declares.

Conventions of the embedding.

* `Scalar` (the template's `DerivedV::Scalar`) is instantiated with the exact
  rationals, so that boxes, barycenters and comparisons are computed exactly.
* `DIM` is the template's dimension parameter.
* An owning pointer `AABB *` is either `NULL` or owns the object it points to;
  since every `AABB` object owns its children exclusively (the copy
  constructor allocates fresh nodes, `deinit` deletes them), the heap reachable
  from a node is a tree and is embedded as the inductive type `AABBPtr`.
* Member functions that mutate `*this` or an argument take the old values and
  return the new ones.
-/

namespace igl

/-! ## Data model -/

/-- The type `Scalar` of the vertex matrix entries, taken to be exact rationals. -/
abbrev Scalar : Type := ℚ

/-- The type `RowVectorDIMS`: a point with `DIM` coordinates. -/
abbrev RowVectorDIMS (DIM : Nat) : Type := Fin DIM → Scalar

/-- The type `Eigen::AlignedBox<Scalar,DIM>`: either the empty box (the value of the
default constructor) or the box spanned by a min corner and a max corner. -/
inductive AlignedBox (DIM : Nat) where
  | empty : AlignedBox DIM
  | corners (min max : RowVectorDIMS DIM) : AlignedBox DIM
  deriving DecidableEq

/-- The type `AABB *`: an owning pointer, `NULL` or the object pointed to, given by its
four members `m_left`, `m_right`, `m_box`, `m_primitive`. -/
inductive AABBPtr (DIM : Nat) where
  | NULL : AABBPtr DIM
  | obj (m_left m_right : AABBPtr DIM) (m_box : AlignedBox DIM) (m_primitive : Int) :
      AABBPtr DIM
  deriving DecidableEq

/-- The class `AABB`: the four data members of AABB.h lines 33-37; `m_primitive` is
`-1` at a non-leaf. -/
structure AABB (DIM : Nat) where
  m_left : AABBPtr DIM
  m_right : AABBPtr DIM
  m_box : AlignedBox DIM
  m_primitive : Int
  deriving DecidableEq

variable {DIM : Nat}

/-- The test `p == NULL`. -/
def AABBPtr.isNull : AABBPtr DIM → Bool
  | .NULL => true
  | .obj _ _ _ _ => false

/-- The object a non-null pointer points to (`*p`). -/
def AABBPtr.deref : AABBPtr DIM → Option (AABB DIM)
  | .NULL => none
  | .obj l r b e => some ⟨l, r, b, e⟩

/-- The pointer owning a heap copy of the object `t` (what `new` returns for
an object with the members of `t`). -/
def AABB.toPtr (t : AABB DIM) : AABBPtr DIM :=
  .obj t.m_left t.m_right t.m_box t.m_primitive

/-! ## Constructors, `swap`, `operator=`, `deinit` (AABB.h lines 40-96) -/

/-- The default constructor `AABB()`: `m_left(NULL), m_right(NULL), m_box(),
m_primitive(-1)`. -/
def AABB.ctor : AABB DIM :=
  { m_left := .NULL, m_right := .NULL, m_box := .empty, m_primitive := -1 }

/-- The expression `p ? new AABB(*p) : NULL`: the recursive deep copy performed by the
member initialisers of the copy constructor. -/
def AABBPtr.copy : AABBPtr DIM → AABBPtr DIM
  | .NULL => .NULL
  | .obj l r b e => .obj l.copy r.copy b e

/-- The copy constructor `AABB(const AABB& other)`.  Returns the constructed
object and `other` (which is `const` and so handed back untouched). -/
def AABB.copy_ctor (other : AABB DIM) : AABB DIM × AABB DIM :=
  ({ m_left := other.m_left.copy,
     m_right := other.m_right.copy,
     m_box := other.m_box,
     m_primitive := other.m_primitive }, other)

/-- The function `friend void swap(AABB& first, AABB& second)`: four member-wise
`std::swap`s, in the order of the source. -/
def swap (first second : AABB DIM) : AABB DIM × AABB DIM :=
  let (first, second) :=
    ({ first with m_left := second.m_left }, { second with m_left := first.m_left })
  let (first, second) :=
    ({ first with m_right := second.m_right }, { second with m_right := first.m_right })
  let (first, second) :=
    ({ first with m_box := second.m_box }, { second with m_box := first.m_box })
  let (first, second) :=
    ({ first with m_primitive := second.m_primitive },
     { second with m_primitive := first.m_primitive })
  (first, second)

/-- The member `inline void deinit()`: reset `m_primitive` and `m_box`, `delete` both
children and null the two pointers.  The subtree owned through a child pointer
is part of that pointer's value, and `delete` destroys all of it (the
destructor of the child being `deinit` again); so after `delete m_left;
m_left = NULL;` nothing of the left subtree remains, and likewise on the right. -/
def AABB.deinit (self : AABB DIM) : AABB DIM :=
  let self := { self with m_primitive := -1 }
  let self := { self with m_box := AlignedBox.empty }
  let self := { self with m_left := AABBPtr.NULL }
  let self := { self with m_right := AABBPtr.NULL }
  self

/-- The assignment `AABB& operator=(AABB other)`.  The parameter is passed by
value, so it is copy-constructed from the right-hand side `rhs`; then
`swap(*this, other)`; at the end of the call the parameter, now holding the
old contents of `*this`, is destroyed.  Returns the new `*this` and the
right-hand side. -/
def AABB.assign (self rhs : AABB DIM) : AABB DIM × AABB DIM :=
  let (other, rhs) := AABB.copy_ctor rhs
  let (self, other) := swap self other
  let _destroyed := other.deinit
  (self, rhs)

/-- Self-assignment `a = a`: the right-hand side is `*this` itself. The
by-value parameter is copy-constructed from `*this` before the swap. -/
def AABB.assign_self (self : AABB DIM) : AABB DIM :=
  let (other, self) := AABB.copy_ctor self
  let (self, other) := swap self other
  let _destroyed := other.deinit
  self

/-- The move constructor `AABB(AABB&& other)`: delegate to `AABB()`, then
`swap(*this, other)`.  Returns the constructed object and the moved-from
`other`. -/
def AABB.move_ctor (other : AABB DIM) : AABB DIM × AABB DIM :=
  let self : AABB DIM := AABB.ctor
  swap self other

/-! ## Positions and shape -/

/-- Follow a path of child selections (`false` = `m_left`, `true` =
`m_right`) from a pointer; `NULL` when the path leaves the tree. -/
def AABBPtr.descend : AABBPtr DIM → List Bool → AABBPtr DIM
  | p, [] => p
  | .NULL, _ :: _ => .NULL
  | .obj l r _ _, b :: path => (if b then r else l).descend path

/-- The node of the tree rooted at `t` at a given position, if any. -/
def AABB.nodeAt (t : AABB DIM) (path : List Bool) : Option (AABB DIM) :=
  (t.toPtr.descend path).deref

/-- Every object below (and including) the pointee has both children or
neither. -/
def AABBPtr.paired : AABBPtr DIM → Bool
  | .NULL => true
  | .obj l r _ _ => (l.isNull == r.isNull) && l.paired && r.paired

/-- Every node of the tree rooted at `t` has both children or neither. -/
def AABB.paired (t : AABB DIM) : Bool := t.toPtr.paired

/-! ## Boxes (`Eigen::AlignedBox`) and meshes

`Eigen::AlignedBox` belongs to the Eigen library; its member functions are
embedded by their documented behaviour. -/

/-- Eigen's `box.extend(p)`: the smallest box containing `box` and the point `p`. -/
def AlignedBox.extend (b : AlignedBox DIM) (p : RowVectorDIMS DIM) : AlignedBox DIM :=
  match b with
  | .empty => .corners p p
  | .corners lo hi => .corners (fun d => min (lo d) (p d)) (fun d => max (hi d) (p d))

/-- Eigen's `a.merged(b)`: the union (smallest enclosing box) of two boxes. -/
def AlignedBox.merged (a b : AlignedBox DIM) : AlignedBox DIM :=
  match a, b with
  | .empty, b => b
  | .corners lo hi, .empty => .corners lo hi
  | .corners lo hi, .corners lo2 hi2 =>
      .corners (fun d => min (lo d) (lo2 d)) (fun d => max (hi d) (hi2 d))

/-- Eigen's `box.contains(p)`: every coordinate of `p` lies between the corners. -/
def AlignedBox.contains (b : AlignedBox DIM) (p : RowVectorDIMS DIM) : Bool :=
  match b with
  | .empty => false
  | .corners lo hi => (List.finRange DIM).all (fun d => decide (lo d ≤ p d ∧ p d ≤ hi d))

/-- One coordinate's contribution to the squared distance from a point to a
box: zero between the two faces, the squared gap outside. -/
def exterior_gap (lo hi x : Scalar) : Scalar :=
  if x < lo then (lo - x) ^ 2 else if hi < x then (x - hi) ^ 2 else 0

/-- Eigen's `box.squaredExteriorDistance(p)`: the squared distance from `p` to the
box, zero if `p` is inside; the empty box is infinitely far away. -/
def AlignedBox.squaredExteriorDistance (b : AlignedBox DIM) (p : RowVectorDIMS DIM) :
    WithTop Scalar :=
  match b with
  | .empty => ⊤
  | .corners lo hi =>
      ((((List.finRange DIM).map (fun d => exterior_gap (lo d) (hi d) (p d))).sum : Scalar) :
        WithTop Scalar)

/-- Eigen's `box.diagonal()(d)`: the extent of the box along axis `d`. -/
def AlignedBox.extent (b : AlignedBox DIM) (d : Fin DIM) : Scalar :=
  match b with
  | .empty => 0
  | .corners lo hi => hi d - lo d

/-- The axis of greatest extent of a box (the first one among equals). -/
def AlignedBox.longest_axis [NeZero DIM] (b : AlignedBox DIM) : Fin DIM :=
  (List.finRange DIM).foldl (fun best d => if b.extent best < b.extent d then d else best) 0

variable {SS : Nat}

/-- The row `V.row(v)` of the vertex matrix (the origin when `v` is out of range). -/
def row (V : List (RowVectorDIMS DIM)) (v : Nat) : RowVectorDIMS DIM := V.getD v 0

/-- The row `Ele.row(e)`: the vertex indices of element `e`, a tuple of fixed arity
`SS` (the simplex size, `Ele.cols()`). -/
def element (Ele : List (Fin SS → Nat)) (e : Nat) : Fin SS → Nat := Ele.getD e (fun _ => 0)

/-- The vertex positions of element `e`: `V.row(Ele(e,c))` for each column `c`. -/
def element_vertices (V : List (RowVectorDIMS DIM)) (Ele : List (Fin SS → Nat)) (e : Nat) :
    List (RowVectorDIMS DIM) :=
  (List.finRange SS).map (fun c => row V (element Ele e c))

/-- The bounding box of the vertices of element `e`. -/
def element_box (V : List (RowVectorDIMS DIM)) (Ele : List (Fin SS → Nat)) (e : Nat) :
    AlignedBox DIM :=
  (element_vertices V Ele e).foldl AlignedBox.extend AlignedBox.empty

/-- The bounding box of the vertices of all the elements of the subset `I`. -/
def active_box (V : List (RowVectorDIMS DIM)) (Ele : List (Fin SS → Nat)) (I : List Nat) :
    AlignedBox DIM :=
  I.foldl (fun b e => (element_vertices V Ele e).foldl AlignedBox.extend b) AlignedBox.empty

/-- The centroid of element `e`: the mean of its vertices. -/
def barycenter (V : List (RowVectorDIMS DIM)) (Ele : List (Fin SS → Nat)) (e : Nat) :
    RowVectorDIMS DIM :=
  fun d => ((element_vertices V Ele e).map (fun v => v d)).sum / (element_vertices V Ele e).length

/-- A box encloses element `e` when it contains every vertex of `e`. -/
def encloses (V : List (RowVectorDIMS DIM)) (Ele : List (Fin SS → Nat)) (B : AlignedBox DIM)
    (e : Nat) : Prop :=
  ∀ v ∈ element_vertices V Ele e, B.contains v = true

/-! ## Construction

`AABB.cpp`, which holds the bodies of `init`, `is_leaf`, `find`, `serialize`
and the distance and ray queries, is not part of the sources at hand; these
functions are modelled from the specification and from the documentation of
their declarations in AABB.h. -/

/-- Modelled from the spec: the sort ranks `SI` that `init(V,Ele)` computes
(its body is in the missing AABB.cpp).  Per AABB.h lines 124-127, `SI(e,d) = i`
when the `d`th coordinate of the barycenter of the `e`th element is placed at
position `i` in the sorted list of all barycenters. -/
def sort_ranks (V : List (RowVectorDIMS DIM)) (Ele : List (Fin SS → Nat)) (e : Nat)
    (d : Fin DIM) : Nat :=
  ((List.range Ele.length).insertionSort
    (fun a b => barycenter V Ele a d ≤ barycenter V Ele b d)).indexOf e

/-- Modelled from the spec: `init(V,Ele,SI,I)`, the recursive construction
over the active subset `I` (body in the missing AABB.cpp), following section
4.1: no element gives the empty root; one element gives a leaf whose box is
the bounding box of the element's vertices; otherwise the split axis is the
axis of greatest extent of the active box, the active subset is partitioned at
the median rank along that axis into two halves whose sizes differ by at most
one, both halves are built recursively and the node's box is the union of the
children's boxes.  The first argument bounds the recursion depth. -/
def init_SI [NeZero DIM] (V : List (RowVectorDIMS DIM)) (Ele : List (Fin SS → Nat))
    (SI : Nat → Fin DIM → Nat) : Nat → List Nat → AABB DIM
  | _, [] => AABB.ctor
  | _, [e] =>
      { m_left := .NULL, m_right := .NULL, m_box := element_box V Ele e, m_primitive := e }
  | 0, _ :: _ :: _ => AABB.ctor
  | fuel + 1, e1 :: e2 :: rest =>
      let I := e1 :: e2 :: rest
      let max_d := (active_box V Ele I).longest_axis
      let sorted := I.insertionSort (fun a b => SI a max_d ≤ SI b max_d)
      let LI := sorted.take ((I.length + 1) / 2)
      let RI := sorted.drop ((I.length + 1) / 2)
      let left := init_SI V Ele SI fuel LI
      let right := init_SI V Ele SI fuel RI
      { m_left := left.toPtr, m_right := right.toPtr,
        m_box := left.m_box.merged right.m_box, m_primitive := -1 }

/-- Modelled from the spec: `init(V,Ele)` (body in the missing AABB.cpp):
compute the sort ranks and build over the full index set `0, ..., #Ele-1`. -/
def init [NeZero DIM] (V : List (RowVectorDIMS DIM)) (Ele : List (Fin SS → Nat)) : AABB DIM :=
  init_SI V Ele (sort_ranks V Ele) Ele.length (List.range Ele.length)

/-- The values of `m_primitive` at the childless nodes below a pointer, from
left to right. -/
def AABBPtr.leaves : AABBPtr DIM → List Int
  | .NULL => []
  | .obj .NULL .NULL _ e => [e]
  | .obj l r _ _ => l.leaves ++ r.leaves

/-- The element indices stored at the leaves of the tree rooted at `t`. -/
def AABB.leaves (t : AABB DIM) : List Int := t.toPtr.leaves

/-- A property holds at every object below (and including) the pointee. -/
def AABBPtr.all_nodes (P : AABB DIM → Prop) : AABBPtr DIM → Prop
  | .NULL => True
  | .obj l r b e => P ⟨l, r, b, e⟩ ∧ l.all_nodes P ∧ r.all_nodes P

/-- The box `p->m_box` (the empty box for `NULL`, which has no box). -/
def AABBPtr.box : AABBPtr DIM → AlignedBox DIM
  | .NULL => .empty
  | .obj _ _ b _ => b

/-! ## The data-model invariant -/

/-- Modelled from the spec: `is_leaf()` (declared at AABB.h line 137, body in
the missing AABB.cpp).  Section 3: a node is a leaf iff both children are
absent. -/
def AABB.is_leaf (t : AABB DIM) : Bool := t.m_left.isNull && t.m_right.isNull

/-- The leaf test suggested by the comment on `m_primitive` (AABB.h line 36,
"-1 non-leaf"): a node is a leaf when its element index is not `-1`. -/
def AABB.has_primitive (t : AABB DIM) : Bool := t.m_primitive != -1

/-- The invariant of section 3 at one node, for a given notion of leaf: the
node is a leaf iff both children are absent, and its element index is
non-negative iff it is a leaf. -/
def node_invariant (leaf : AABB DIM → Bool) (n : AABB DIM) : Prop :=
  (leaf n = true ↔ (n.m_left.isNull = true ∧ n.m_right.isNull = true)) ∧
  (0 ≤ n.m_primitive ↔ leaf n = true)

/-- The invariant of section 3 at every node of the tree rooted at `t`. -/
def AABB.invariant (leaf : AABB DIM → Bool) (t : AABB DIM) : Prop :=
  t.toPtr.all_nodes (node_invariant leaf)

/-- The box of a node contains every point contained in the bounding box of
an element stored at a leaf below the node. -/
def box_covers (V : List (RowVectorDIMS DIM)) (Ele : List (Fin SS → Nat))
    (q : RowVectorDIMS DIM) (n : AABB DIM) : Prop :=
  ∀ e : Nat, (e : Int) ∈ n.leaves → (element_box V Ele e).contains q = true →
    n.m_box.contains q = true

/-! ## Containment query -/

/-- Modelled from the spec: the recursion of `find` (declared at AABB.h lines
150-155, body in the missing AABB.cpp), following section 4.2: at a leaf,
consult the point-in-simplex oracle `in_element`; otherwise descend into a
child only if its box contains the query point; with `first`, stop as soon as
a descendant returns a hit; a child whose box does not contain the point
contributes nothing. -/
def AABBPtr.find (in_element : Int → Bool) (q : RowVectorDIMS DIM) (first : Bool) :
    AABBPtr DIM → List Int
  | .NULL => []
  | .obj l r _ e =>
      if l.isNull && r.isNull then
        if in_element e then [e] else []
      else
        let left := if l.box.contains q then l.find in_element q first else []
        if first && !left.isEmpty then left
        else
          let right := if r.box.contains q then r.find in_element q first else []
          if first then right else left ++ right

/-- Modelled from the spec: `find(V,Ele,q,first)`, with the external oracle
`point_in_simplex(V, Ele, element_id, point) -> bool` of section 6 as a
parameter. -/
def AABB.find (point_in_simplex : List (RowVectorDIMS DIM) → List (Fin SS → Nat) → Int →
      RowVectorDIMS DIM → Bool)
    (t : AABB DIM) (V : List (RowVectorDIMS DIM)) (Ele : List (Fin SS → Nat))
    (q : RowVectorDIMS DIM) (first : Bool) : List Int :=
  t.toPtr.find (fun e => point_in_simplex V Ele e q) q first

/-! ## Squared distance query -/

/-- The running best of a nearest-point query: `sqr_d`, `i`, `c`. -/
structure Best (DIM : Nat) where
  sqr_d : WithTop Scalar
  i : Int
  c : RowVectorDIMS DIM

/-- Modelled from the spec: `set_min` (declared at AABB.h lines 279-286):
replace the running best only if the candidate is strictly smaller. -/
def set_min (sqr_d_candidate : WithTop Scalar) (i_candidate : Int)
    (c_candidate : RowVectorDIMS DIM) (best : Best DIM) : Best DIM :=
  if sqr_d_candidate < best.sqr_d then
    { sqr_d := sqr_d_candidate, i := i_candidate, c := c_candidate }
  else best

/-- Modelled from the spec: `leaf_squared_distance` (declared at AABB.h lines
272-278): invoke the point-to-simplex oracle for the leaf's element and update
the running best. -/
def leaf_squared_distance (oracle : Int → WithTop Scalar × RowVectorDIMS DIM) (e : Int)
    (best : Best DIM) : Best DIM :=
  set_min (oracle e).1 e (oracle e).2 best

/-- Modelled from the spec: the branch-and-bound traversal of section 4.3
(body in the missing AABB.cpp).  At a leaf the oracle is invoked.  At an
internal node the squared distances from `p` to the two children's boxes are
computed, the child with the smaller one is visited first (the left one when
they are equal), and the other child is skipped when its box distance is at
least the current best squared distance. -/
def AABBPtr.squared_distance (oracle : Int → WithTop Scalar × RowVectorDIMS DIM)
    (p : RowVectorDIMS DIM) : AABBPtr DIM → Best DIM → Best DIM
  | .NULL, best => best
  | .obj l r _ e, best =>
      if l.isNull && r.isNull then
        leaf_squared_distance oracle e best
      else
        let left_min_sqr_d := l.box.squaredExteriorDistance p
        let right_min_sqr_d := r.box.squaredExteriorDistance p
        if left_min_sqr_d ≤ right_min_sqr_d then
          let best := l.squared_distance oracle p best
          if best.sqr_d ≤ right_min_sqr_d then best
          else r.squared_distance oracle p best
        else
          let best := r.squared_distance oracle p best
          if best.sqr_d ≤ left_min_sqr_d then best
          else l.squared_distance oracle p best

/-- Modelled from the spec: `squared_distance(V,Ele,p,min_sqr_d,i,c)`
(AABB.h lines 196-202): if the root box is at least `min_sqr_d` away, return
at once with the bound unchanged and no element found; otherwise traverse.
The oracle is `point_simplex_squared_distance(V, Ele, element_id, point) ->
(squared_distance, closest_point)` of section 6.  Returns the squared distance
and the new values of `i` and `c`. -/
def AABB.squared_distance_bounded
    (point_simplex_squared_distance : List (RowVectorDIMS DIM) → List (Fin SS → Nat) → Int →
      RowVectorDIMS DIM → WithTop Scalar × RowVectorDIMS DIM)
    (t : AABB DIM) (V : List (RowVectorDIMS DIM)) (Ele : List (Fin SS → Nat))
    (p : RowVectorDIMS DIM) (min_sqr_d : WithTop Scalar) (i : Int) (c : RowVectorDIMS DIM) :
    WithTop Scalar × Int × RowVectorDIMS DIM :=
  if min_sqr_d ≤ t.m_box.squaredExteriorDistance p then (min_sqr_d, i, c)
  else
    let best := t.toPtr.squared_distance (fun e => point_simplex_squared_distance V Ele e p) p
      { sqr_d := min_sqr_d, i := i, c := c }
    (best.sqr_d, best.i, best.c)

/-- Modelled from the spec: `squared_distance(V,Ele,p,i,c)` (AABB.h lines
189-194): the bounded query with the bound `+infinity`. -/
def AABB.squared_distance
    (point_simplex_squared_distance : List (RowVectorDIMS DIM) → List (Fin SS → Nat) → Int →
      RowVectorDIMS DIM → WithTop Scalar × RowVectorDIMS DIM)
    (t : AABB DIM) (V : List (RowVectorDIMS DIM)) (Ele : List (Fin SS → Nat))
    (p : RowVectorDIMS DIM) (i : Int) (c : RowVectorDIMS DIM) :
    WithTop Scalar × Int × RowVectorDIMS DIM :=
  t.squared_distance_bounded point_simplex_squared_distance V Ele p ⊤ i c

/-- The value `r` is the smaller of the incoming bound and the least oracle
value over a list of leaves. -/
def Tracks (o : Int → WithTop Scalar × RowVectorDIMS DIM) (leaves : List Int)
    (bound r : WithTop Scalar) : Prop :=
  r ≤ bound ∧ (∀ x ∈ leaves, r ≤ (o x).1) ∧ (r = bound ∨ ∃ x ∈ leaves, r = (o x).1)

/-- The oracle value of every element stored below a node is at least the
squared distance from `p` to the node's box. -/
def bound_ok (o : Int → WithTop Scalar × RowVectorDIMS DIM) (p : RowVectorDIMS DIM)
    (n : AABB DIM) : Prop :=
  ∀ x ∈ n.leaves, n.m_box.squaredExteriorDistance p ≤ (o x).1

/-- Every value stored at a leaf below the node is the index of an element of
the mesh (below `m`) that the node's box encloses. -/
def leaves_enclosed (V : List (RowVectorDIMS DIM)) (Ele : List (Fin SS → Nat)) (m : Nat)
    (n : AABB DIM) : Prop :=
  ∀ x ∈ n.leaves, ∃ e : Nat, e < m ∧ x = (e : Int) ∧ encloses V Ele n.m_box e

/-! ## Ray intersection query -/

/-- Modelled from the spec: `igl::Hit` (Hit.h is not among the sources).
Section 4.4: a hit records the element index, the barycentric coordinates of
the intersection and the ray parameter `t`. -/
structure Hit where
  id : Int
  u : Scalar
  v : Scalar
  t : Scalar
  deriving DecidableEq

/-- Modelled from the spec: `intersect_ray`, first hit with threshold `min_t`
(AABB.h lines 218-224, body in the missing AABB.cpp), following section 4.4:
after a hit in one child the threshold handed to the sibling is that hit's
`t`, and the closer of the hits found in the two children is kept. -/
def AABBPtr.intersect_ray_first (ray_box : AlignedBox DIM → Bool)
    (ray_simplex : Int → WithTop Scalar → Option Hit) :
    AABBPtr DIM → WithTop Scalar → Option Hit
  | .NULL, _ => none
  | .obj l r _ e, min_t =>
      if l.isNull && r.isNull then ray_simplex e min_t
      else
        let left_hit := if ray_box l.box then l.intersect_ray_first ray_box ray_simplex min_t
          else none
        let min_t := match left_hit with
          | some h => ((h.t : Scalar) : WithTop Scalar)
          | none => min_t
        let right_hit := if ray_box r.box then r.intersect_ray_first ray_box ray_simplex min_t
          else none
        match left_hit, right_hit with
        | some a, some b => if b.t < a.t then some b else some a
        | some a, none => some a
        | none, h => h

/-- Modelled from the spec: `intersect_ray(V,Ele,origin,dir,min_t,hit)`, the
first hit. -/
def AABB.intersect_ray_first
    (ray_box_intersect : RowVectorDIMS DIM → RowVectorDIMS DIM → AlignedBox DIM → Bool)
    (ray_simplex_intersect : List (RowVectorDIMS DIM) → List (Fin SS → Nat) → Int →
      RowVectorDIMS DIM → RowVectorDIMS DIM → WithTop Scalar → Option Hit)
    (t : AABB DIM) (V : List (RowVectorDIMS DIM)) (Ele : List (Fin SS → Nat))
    (origin dir : RowVectorDIMS DIM) (min_t : WithTop Scalar) : Option Hit :=
  t.toPtr.intersect_ray_first (ray_box_intersect origin dir)
    (fun e => ray_simplex_intersect V Ele e origin dir) min_t

/-! ## Serialization -/

/-- The serialized form: three parallel arrays `bb_mins`, `bb_maxs`,
`elements` (AABB.h lines 103-105). -/
structure Serialized (DIM : Nat) where
  bb_mins : List (RowVectorDIMS DIM)
  bb_maxs : List (RowVectorDIMS DIM)
  elements : List Int

/-- Values the program leaves undetermined: the contents of array entries that
are allocated but never written, and the corners stored in an empty box. -/
structure Unspecified (DIM : Nat) where
  fill_min : RowVectorDIMS DIM
  fill_max : RowVectorDIMS DIM
  fill_element : Int
  empty_min : RowVectorDIMS DIM
  empty_max : RowVectorDIMS DIM

/-- Eigen's `box.min()`: the min corner (unspecified for the empty box). -/
def AlignedBox.min (u : Unspecified DIM) : AlignedBox DIM → RowVectorDIMS DIM
  | .empty => u.empty_min
  | .corners lo _ => lo

/-- Eigen's `box.max()`: the max corner (unspecified for the empty box). -/
def AlignedBox.max (u : Unspecified DIM) : AlignedBox DIM → RowVectorDIMS DIM
  | .empty => u.empty_max
  | .corners _ hi => hi

/-- Row `i` of the three arrays, when `i` is in range for all of them. -/
def Serialized.read (s : Serialized DIM) (i : Nat) :
    Option (RowVectorDIMS DIM × RowVectorDIMS DIM × Int) :=
  match s.bb_mins[i]?, s.bb_maxs[i]?, s.elements[i]? with
  | some lo, some hi, some e => some (lo, hi, e)
  | _, _, _ => none

/-- Assign row `i` of the three arrays; fails when `i` is out of range. -/
def Serialized.write (s : Serialized DIM) (i : Nat)
    (lo hi : RowVectorDIMS DIM) (e : Int) : Option (Serialized DIM) :=
  if i < s.bb_mins.length ∧ i < s.bb_maxs.length ∧ i < s.elements.length then
    some { bb_mins := s.bb_mins.set i lo, bb_maxs := s.bb_maxs.set i hi,
           elements := s.elements.set i e }
  else none

/-- Modelled from the spec: the length of the serialized arrays for a mesh of
`m` elements (section 3: the next power of two at least `2m-1`, doubled;
AABB.h lines 157-158: `2*h` with `h = 2^ceil(log(#Ele*2-1))`). -/
def max_tree (m : Nat) : Nat := 2 * 2 ^ Nat.clog 2 (2 * m - 1)

/-- Modelled from the spec: `subtree_size()` (body in the missing AABB.cpp):
the array length for the number of elements held by the tree. -/
def AABB.subtree_size (t : AABB DIM) : Nat := max_tree t.leaves.length

/-- Modelled from the spec: the recursion of `serialize` (AABB.h lines
168-173, body in the missing AABB.cpp): the node with recursive call index `i`
is written to row `i`, the element array receiving `m_primitive` (`-1` marks
"not a leaf"); the children, when present, are written with the call indices
`2*i+1` and `2*i+2`, the implicit encoding from which their positions are
recovered. -/
def AABBPtr.serialize (u : Unspecified DIM) :
    AABBPtr DIM → Nat → Serialized DIM → Option (Serialized DIM)
  | .NULL, _, s => some s
  | .obj l r b e, i, s =>
      match s.write i (b.min u) (b.max u) e with
      | none => none
      | some s =>
          match l.serialize u (2 * i + 1) s with
          | none => none
          | some s => r.serialize u (2 * i + 2) s

/-- Modelled from the spec: `serialize(bb_mins,bb_maxs,elements)`: called for
the root, the arrays are first resized to `subtree_size()` rows, whose contents
are unspecified until written. -/
def AABB.serialize (u : Unspecified DIM) (t : AABB DIM) : Option (Serialized DIM) :=
  let m := t.subtree_size
  t.toPtr.serialize u 0
    { bb_mins := List.replicate m u.fill_min, bb_maxs := List.replicate m u.fill_max,
      elements := List.replicate m u.fill_element }

/-- Modelled from the spec: the recursion of `init` from a serialization
(AABB.h lines 107-114, body in the missing AABB.cpp): the arrays are
interpreted positionally; row `i` gives the node's box and element; when the
element is the "not a leaf" marker `-1` the two children are rebuilt from rows
`2*i+1` and `2*i+2`.  Reading a row out of range fails.  The first argument
bounds the recursion depth. -/
def init_serialized_rec (s : Serialized DIM) : Nat → Nat → Option (AABB DIM)
  | 0, _ => none
  | fuel + 1, i =>
      match s.read i with
      | none => none
      | some (lo, hi, e) =>
          if e = -1 then
            match init_serialized_rec s fuel (2 * i + 1),
              init_serialized_rec s fuel (2 * i + 2) with
            | some left, some right =>
                some { m_left := left.toPtr, m_right := right.toPtr,
                       m_box := .corners lo hi, m_primitive := e }
            | _, _ => none
          else
            some { m_left := .NULL, m_right := .NULL, m_box := .corners lo hi, m_primitive := e }

/-- Modelled from the spec: `init(V,Ele,bb_mins,bb_maxs,elements)`.  With an
empty serialization this is `init(V,Ele)` (AABB.h line 115: "wrapper for root
with empty serialization"); otherwise the tree is rebuilt from the arrays,
starting at row `0`. -/
def init_serialized [NeZero DIM] (V : List (RowVectorDIMS DIM)) (Ele : List (Fin SS → Nat))
    (s : Serialized DIM) : Option (AABB DIM) :=
  if s.bb_mins.length = 0 then some (init V Ele)
  else init_serialized_rec s (s.elements.length + 1) 0

/-! ## Trees the operations produce -/

/-- The rows that the rebuild started at row `i` reads as leaves (element entry
other than the marker `-1`) all hold a non-negative element index.  The
recursion follows `init_serialized_rec`; rows that are never read, and rows
read as internal nodes, are not constrained. -/
def leaf_rows_nonneg (s : Serialized DIM) : Nat → Nat → Bool
  | 0, _ => true
  | fuel + 1, i =>
      match s.read i with
      | none => true
      | some (_, _, e) =>
          if e = -1 then
            leaf_rows_nonneg s fuel (2 * i + 1) && leaf_rows_nonneg s fuel (2 * i + 2)
          else decide (0 ≤ e)

/-- The tree values the operations can produce: default construction, copy,
move, swap, assignment, `deinit` and the three overloads of `init`: from a
mesh, from a mesh with sort ranks and an active subset, and from a mesh with
serialized arrays (from row `0`, or from any recursive call index `i`).  For
the last overload the arrays are those whose rows read as leaves hold
non-negative element indices, as the format requires of an element entry. -/
inductive Producible [NeZero DIM] : AABB DIM → Prop
  | ctor : Producible AABB.ctor
  | copy_new {t : AABB DIM} : Producible t → Producible (AABB.copy_ctor t).1
  | copy_src {t : AABB DIM} : Producible t → Producible (AABB.copy_ctor t).2
  | move_new {t : AABB DIM} : Producible t → Producible (AABB.move_ctor t).1
  | move_src {t : AABB DIM} : Producible t → Producible (AABB.move_ctor t).2
  | swap_first {a b : AABB DIM} : Producible a → Producible b → Producible (swap a b).1
  | swap_second {a b : AABB DIM} : Producible a → Producible b → Producible (swap a b).2
  | assign_lhs {a b : AABB DIM} : Producible a → Producible b → Producible (AABB.assign a b).1
  | assign_rhs {a b : AABB DIM} : Producible a → Producible b → Producible (AABB.assign a b).2
  | assign_self {a : AABB DIM} : Producible a → Producible (AABB.assign_self a)
  | deinit {t : AABB DIM} : Producible t → Producible t.deinit
  | init {SS : Nat} (V : List (RowVectorDIMS DIM)) (Ele : List (Fin SS → Nat)) :
      Producible (init V Ele)
  | init_SI {SS : Nat} (V : List (RowVectorDIMS DIM)) (Ele : List (Fin SS → Nat))
      (SI : Nat → Fin DIM → Nat) (I : List Nat) : Producible (init_SI V Ele SI I.length I)
  | init_serialized {SS : Nat} (V : List (RowVectorDIMS DIM)) (Ele : List (Fin SS → Nat))
      (s : Serialized DIM) (t : AABB DIM) :
      leaf_rows_nonneg s (s.elements.length + 1) 0 = true →
      init_serialized V Ele s = some t → Producible t
  | init_serialized_at (s : Serialized DIM) (i : Nat) (t : AABB DIM) :
      leaf_rows_nonneg s (s.elements.length + 1) i = true →
      init_serialized_rec s (s.elements.length + 1) i = some t → Producible t

/-! ## Predicates used to reason about serialization -/

/-- A point-in-triangle test with a tolerance, for triangles in the plane:
the three signed areas spanned by the query point and the edges may be
negative by at most `eps`. -/
def tolerant_in_triangle (eps : Scalar) (V : List (RowVectorDIMS 2))
    (Ele : List (Fin 3 → Nat)) (e : Int) (q : RowVectorDIMS 2) : Bool :=
  let a := row V (element Ele e.toNat 0)
  let b := row V (element Ele e.toNat 1)
  let c := row V (element Ele e.toNat 2)
  let area := fun (x y z : RowVectorDIMS 2) =>
    (y 0 - x 0) * (z 1 - x 1) - (z 0 - x 0) * (y 1 - x 1)
  decide (-eps ≤ area q b c) && decide (-eps ≤ area a q c) && decide (-eps ≤ area a b q)

/-- Three triangles in the plane: two sharing an edge in the unit square, one
far away. -/
def exampleV : List (RowVectorDIMS 2) :=
  [![0, 0], ![1, 0], ![0, 1], ![1, 1], ![5, 5], ![6, 5], ![5, 6]]

/-- The elements of the example mesh. -/
def exampleEle : List (Fin 3 → Nat) := [![0, 1, 2], ![1, 3, 2], ![4, 5, 6]]

/-- A small tree: a root with two leaves. -/
def exampleTree : AABB 2 :=
  { m_left := .obj .NULL .NULL (.corners ![0, 0] ![1, 1]) 0,
    m_right := .obj .NULL .NULL (.corners ![2, 0] ![3, 1]) 1,
    m_box := .corners ![0, 0] ![3, 1],
    m_primitive := -1 }

/-- The squared distance from `p` to the first vertex of element `e`, with
that vertex as closest point: the exact point-to-simplex oracle for a mesh
whose elements are single points (`Ele.cols() == 1`). -/
def point_squared_distance [NeZero SS] (V : List (RowVectorDIMS DIM))
    (Ele : List (Fin SS → Nat)) (e : Int) (p : RowVectorDIMS DIM) :
    WithTop Scalar × RowVectorDIMS DIM :=
  let v := row V (element Ele e.toNat 0)
  (((((List.finRange DIM).map (fun d => (p d - v d) ^ 2)).sum : Scalar) : WithTop Scalar), v)

/-- A mesh of four points in the plane. -/
def pointsV : List (RowVectorDIMS 2) := [![0, 0], ![4, 0], ![0, 3], ![5, 5]]

/-- The elements of the point mesh: one vertex each. -/
def pointsEle : List (Fin 1 → Nat) := [![0], ![1], ![2], ![3]]

/-- Sample values for the contents the program leaves undetermined. -/
def exampleUnspecified : Unspecified 2 :=
  { fill_min := ![7, 7], fill_max := ![8, 8], fill_element := 42,
    empty_min := ![100, 100], empty_max := ![-100, -100] }

/-- Serialized arrays of one row whose element entry `-2` is neither an element
index nor the marker `-1`. -/
def negativeEntry : Serialized 2 :=
  { bb_mins := [![0, 0]], bb_maxs := [![1, 1]], elements := [-2] }

/-- Serialized arrays of three rows, all entries element indices or the marker:
a root with the leaves `1` and `0`. -/
def exampleSerialized : Serialized 2 :=
  { bb_mins := [![0, 0], ![0, 0], ![2, 0]], bb_maxs := [![3, 1], ![1, 1], ![3, 1]],
    elements := [-1, 1, 0] }

/-! # Theorems -/

/-! ## Ownership operations -/

theorem AABBPtr.copy_eq (p : AABBPtr DIM) : p.copy = p := by
  induction p with
  | NULL => rfl
  | obj l r b e ihl ihr => simp [AABBPtr.copy, ihl, ihr]

theorem swap_eq (a b : AABB DIM) : swap a b = (b, a) := rfl

theorem AABB.copy_ctor_eq (t : AABB DIM) : AABB.copy_ctor t = (t, t) := by
  cases t
  simp [AABB.copy_ctor, AABBPtr.copy_eq]

theorem AABB.deinit_eq (t : AABB DIM) : t.deinit = AABB.ctor := rfl

theorem AABB.move_ctor_eq (t : AABB DIM) : AABB.move_ctor t = (t, AABB.ctor) := rfl

theorem AABB.assign_eq (a b : AABB DIM) : AABB.assign a b = (b, b) := by
  simp [AABB.assign, AABB.copy_ctor_eq, swap_eq]

theorem AABB.assign_self_eq (a : AABB DIM) : AABB.assign_self a = a := by
  simp [AABB.assign_self, AABB.copy_ctor_eq, swap_eq]

/-- C3. Copying deep-copies the full subtree: the object built by the copy
constructor from `T` is structurally equal to `T` (so at every position it has
the same node: same children present or absent, same box, same element index),
and `T` itself is unchanged. -/
theorem copy_ctor_deep_copy (T : AABB DIM) :
    (AABB.copy_ctor T).1 = T ∧ (AABB.copy_ctor T).2 = T ∧
    ∀ path : List Bool,
      (((AABB.copy_ctor T).1.nodeAt path).isSome = (T.nodeAt path).isSome) ∧
      ∀ n ∈ (AABB.copy_ctor T).1.nodeAt path, ∃ m ∈ T.nodeAt path,
        n.m_left.isNull = m.m_left.isNull ∧ n.m_right.isNull = m.m_right.isNull ∧
        n.m_box = m.m_box ∧ n.m_primitive = m.m_primitive := by
  rw [AABB.copy_ctor_eq]
  refine ⟨rfl, rfl, fun path => ⟨rfl, fun n hn => ⟨n, hn, rfl, rfl, rfl, rfl⟩⟩⟩

/-- C7. After `deinit()` the node has no left child, no right child, element
index `-1` and an empty box: it equals a default-constructed `AABB`, whatever
the tree was. -/
theorem deinit_eq_ctor (T : AABB DIM) :
    T.deinit.m_left = AABBPtr.NULL ∧ T.deinit.m_right = AABBPtr.NULL ∧
    T.deinit.m_primitive = -1 ∧ T.deinit.m_box = AlignedBox.empty ∧
    T.deinit = AABB.ctor :=
  ⟨rfl, rfl, rfl, rfl, rfl⟩

/-- C9. Move construction transfers the tree: the constructed object has
exactly the former children, box and element index of `T`, and `T` is left
equal to a default-constructed `AABB`. -/
theorem move_ctor_transfers (T : AABB DIM) :
    (AABB.move_ctor T).1 = T ∧ (AABB.move_ctor T).2 = AABB.ctor ∧
    (AABB.move_ctor T).2.m_left = AABBPtr.NULL ∧ (AABB.move_ctor T).2.m_right = AABBPtr.NULL ∧
    (AABB.move_ctor T).2.m_primitive = -1 ∧ (AABB.move_ctor T).2.m_box = AlignedBox.empty :=
  ⟨rfl, rfl, rfl, rfl, rfl, rfl⟩

/-- C10. Copy assignment by copy-and-swap: after `A = B` the tree `A` is
structurally equal to `B` whatever `A` held before, `B` is unchanged, and the
self-assignment `A = A` leaves `A` structurally unchanged. -/
theorem assign_copy_and_swap (A B : AABB DIM) :
    (AABB.assign A B).1 = B ∧ (AABB.assign A B).2 = B ∧ AABB.assign_self A = A := by
  rw [AABB.assign_eq, AABB.assign_self_eq]
  exact ⟨rfl, rfl, rfl⟩

/-- C8. Child-pair well-formedness is preserved: if every node of `A` and of
`B` has both children or neither, so has every node of every tree resulting
from the copy constructor, the move constructor, `swap`, copy assignment
(self-assignment included) and `deinit`; the default-constructed tree has the
property too. -/
theorem paired_preserved (A B : AABB DIM) (hA : A.paired = true) (hB : B.paired = true) :
    (AABB.ctor : AABB DIM).paired = true ∧
    (AABB.copy_ctor A).1.paired = true ∧ (AABB.copy_ctor A).2.paired = true ∧
    (AABB.move_ctor A).1.paired = true ∧ (AABB.move_ctor A).2.paired = true ∧
    (swap A B).1.paired = true ∧ (swap A B).2.paired = true ∧
    (AABB.assign A B).1.paired = true ∧ (AABB.assign A B).2.paired = true ∧
    (AABB.assign_self A).paired = true ∧
    A.deinit.paired = true := by
  rw [AABB.copy_ctor_eq, AABB.move_ctor_eq, swap_eq, AABB.assign_eq, AABB.assign_self_eq,
    AABB.deinit_eq]
  exact ⟨rfl, hA, hA, hA, rfl, hB, hA, hB, hB, hA, rfl⟩

/-- The preservation theorem applied to the two-leaf example tree and the empty tree. -/
theorem paired_preserved_witness :
    exampleTree.paired = true ∧ (AABB.ctor : AABB 2).paired = true ∧
    (AABB.ctor : AABB 2).paired = true ∧
    (AABB.copy_ctor exampleTree).1.paired = true ∧ (AABB.copy_ctor exampleTree).2.paired = true ∧
    (AABB.move_ctor exampleTree).1.paired = true ∧ (AABB.move_ctor exampleTree).2.paired = true ∧
    (swap exampleTree AABB.ctor).1.paired = true ∧ (swap exampleTree AABB.ctor).2.paired = true ∧
    (AABB.assign exampleTree AABB.ctor).1.paired = true ∧
    (AABB.assign exampleTree AABB.ctor).2.paired = true ∧
    (AABB.assign_self exampleTree).paired = true ∧
    exampleTree.deinit.paired = true :=
  ⟨by decide, by decide, paired_preserved exampleTree AABB.ctor (by decide) (by decide)⟩

/-! ## Construction -/

/-- Induction principle for the recursive construction: a property of
`(I, init_SI ... I)` holds for every non-empty active subset as soon as it
holds for leaves and is inherited by a node from its two halves. -/
theorem init_SI_induction [NeZero DIM] (V : List (RowVectorDIMS DIM)) (Ele : List (Fin SS → Nat))
    (SI : Nat → Fin DIM → Nat) (motive : List Nat → AABB DIM → Prop)
    (leaf : ∀ e : Nat, motive [e]
      { m_left := .NULL, m_right := .NULL, m_box := element_box V Ele e, m_primitive := e })
    (node : ∀ (I LI RI : List Nat) (left right : AABB DIM),
      2 ≤ I.length → (LI ++ RI).Perm I → LI.length = (I.length + 1) / 2 →
      LI ≠ [] → RI ≠ [] → motive LI left → motive RI right →
      motive I { m_left := left.toPtr, m_right := right.toPtr,
                 m_box := left.m_box.merged right.m_box, m_primitive := -1 }) :
    ∀ (fuel : Nat) (I : List Nat), I ≠ [] → I.length ≤ fuel →
      motive I (init_SI V Ele SI fuel I) := by
  intro fuel
  induction fuel with
  | zero =>
    intro I hne hlen
    match I, hne, hlen with
    | [e], _, _ => simpa [init_SI] using leaf e
    | _ :: _ :: _, _, h => simp at h
  | succ fuel ih =>
    intro I hne hlen
    match I, hne, hlen with
    | [e], _, _ => simpa [init_SI] using leaf e
    | e1 :: e2 :: rest, _, hlen =>
      simp only [init_SI]
      set I := e1 :: e2 :: rest with hI
      set sorted := I.insertionSort
        (fun a b => SI a (active_box V Ele I).longest_axis ≤ SI b (active_box V Ele I).longest_axis)
        with hsorted
      have hslen : sorted.length = I.length := List.length_insertionSort _ _
      have hperm : sorted.Perm I := List.perm_insertionSort _ _
      have hI2 : 2 ≤ I.length := by simp [hI]
      have hlen' : I.length ≤ fuel + 1 := hlen
      have htake : (sorted.take ((I.length + 1) / 2)).length = (I.length + 1) / 2 := by
        rw [List.length_take, hslen]; omega
      have hdrop : (sorted.drop ((I.length + 1) / 2)).length = I.length - (I.length + 1) / 2 := by
        rw [List.length_drop, hslen]
      refine node I (sorted.take ((I.length + 1) / 2)) (sorted.drop ((I.length + 1) / 2))
        _ _ hI2 ?_ ?_ ?_ ?_ ?_ ?_
      · rw [List.take_append_drop]; exact hperm
      · exact htake
      · intro h; rw [h] at htake; simp at htake; omega
      · intro h; rw [h] at hdrop; simp at hdrop; omega
      · apply ih
        · intro h; rw [h] at htake; simp at htake; omega
        · rw [htake]; omega
      · apply ih
        · intro h; rw [h] at hdrop; simp at hdrop; omega
        · rw [hdrop]; omega

/-- Enough fuel gives the result: with at least `#I` units the construction
does not depend on the amount of fuel. -/
theorem init_SI_fuel [NeZero DIM] (V : List (RowVectorDIMS DIM)) (Ele : List (Fin SS → Nat))
    (SI : Nat → Fin DIM → Nat) :
    ∀ (fuel fuel2 : Nat) (I : List Nat), I.length ≤ fuel → I.length ≤ fuel2 →
      init_SI V Ele SI fuel I = init_SI V Ele SI fuel2 I := by
  intro fuel
  induction fuel with
  | zero =>
    intro fuel2 I h1 _
    match I, h1 with
    | [], _ => simp [init_SI]
    | [e], _ => simp [init_SI]
    | _ :: _ :: _, h => simp at h
  | succ fuel ih =>
    intro fuel2 I h1 h2
    match I, h1, h2 with
    | [], _, _ => simp [init_SI]
    | [e], _, _ => simp [init_SI]
    | e1 :: e2 :: rest, h1, h2 =>
      cases fuel2 with
      | zero => simp at h2
      | succ fuel2 =>
        simp only [init_SI]
        have hs : ∀ d : Fin DIM, ((e1 :: e2 :: rest).insertionSort
            (fun a b => SI a d ≤ SI b d)).length = rest.length + 2 := by
          intro d; rw [List.length_insertionSort]; simp
        simp only [List.length_cons] at h1 h2
        rw [ih fuel2 (List.take _ _) (by rw [List.length_take, hs]; simp only [List.length_cons]; omega)
            (by rw [List.length_take, hs]; simp only [List.length_cons]; omega),
          ih fuel2 (List.drop _ _) (by rw [List.length_drop, hs]; simp only [List.length_cons]; omega)
            (by rw [List.length_drop, hs]; simp only [List.length_cons]; omega)]

theorem AABBPtr.leaves_toPtr_node (left right : AABB DIM) (b : AlignedBox DIM) (e : Int) :
    (AABBPtr.obj left.toPtr right.toPtr b e).leaves = left.leaves ++ right.leaves := by
  simp [AABB.toPtr, AABBPtr.leaves, AABB.leaves]

theorem init_SI_leaves [NeZero DIM] (V : List (RowVectorDIMS DIM)) (Ele : List (Fin SS → Nat))
    (SI : Nat → Fin DIM → Nat) (fuel : Nat) (I : List Nat) (hne : I ≠ [])
    (hlen : I.length ≤ fuel) :
    (init_SI V Ele SI fuel I).leaves.Perm (I.map (fun e : Nat => (e : Int))) := by
  refine init_SI_induction V Ele SI
    (fun I t => t.leaves.Perm (I.map (fun e : Nat => (e : Int)))) ?_ ?_ fuel I hne hlen
  · intro e
    simp [AABB.leaves, AABB.toPtr, AABBPtr.leaves]
  · intro I LI RI left right _ hperm _ _ _ hl hr
    show (AABBPtr.obj left.toPtr right.toPtr _ _).leaves.Perm _
    rw [AABBPtr.leaves_toPtr_node]
    have h2 := (hl.append hr)
    rw [← List.map_append] at h2
    exact h2.trans (hperm.map _)

theorem init_leaves [NeZero DIM] (V : List (RowVectorDIMS DIM)) (Ele : List (Fin SS → Nat))
    (hm : 1 ≤ Ele.length) :
    (init V Ele).leaves.Perm ((List.range Ele.length).map (fun e : Nat => (e : Int))) := by
  apply init_SI_leaves
  · intro h
    have := congrArg List.length h
    simp only [List.length_range, List.length_nil] at this
    omega
  · simp

/-- C4. Construction covers the mesh exactly: for a mesh with `m >= 1`
elements, the element indices at the leaves of the tree built by `init(V, Ele)`
are a rearrangement of `0, ..., m-1`; every index below `m` is at exactly one
leaf and no other value is at a leaf. -/
theorem init_leaves_cover [NeZero DIM] (V : List (RowVectorDIMS DIM))
    (Ele : List (Fin SS → Nat)) (hm : 1 ≤ Ele.length) :
    (init V Ele).leaves.Perm ((List.range Ele.length).map (fun e : Nat => (e : Int))) ∧
    (∀ e : Nat, e < Ele.length → (init V Ele).leaves.count (e : Int) = 1) ∧
    (∀ x ∈ (init V Ele).leaves, ∃ e : Nat, e < Ele.length ∧ x = (e : Int)) := by
  have hperm := init_leaves V Ele hm
  have hnodup : ((List.range Ele.length).map (fun e : Nat => (e : Int))).Nodup :=
    (List.nodup_range _).map (fun a b h => by simpa using h)
  refine ⟨hperm, ?_, ?_⟩
  · intro e he
    rw [hperm.count_eq]
    apply List.count_eq_one_of_mem hnodup
    simp only [List.mem_map, List.mem_range]
    exact ⟨e, he, rfl⟩
  · intro x hx
    have := hperm.subset hx
    simp only [List.mem_map, List.mem_range] at this
    obtain ⟨e, he, rfl⟩ := this
    exact ⟨e, he, rfl⟩

/-- The coverage theorem applied to the example mesh of three triangles. -/
theorem init_leaves_cover_witness :
    1 ≤ exampleEle.length ∧
    ((init exampleV exampleEle).leaves.Perm
      ((List.range exampleEle.length).map (fun e : Nat => (e : Int))) ∧
    (∀ e : Nat, e < exampleEle.length → (init exampleV exampleEle).leaves.count (e : Int) = 1) ∧
    (∀ x ∈ (init exampleV exampleEle).leaves, ∃ e : Nat, e < exampleEle.length ∧ x = (e : Int))) :=
  ⟨by decide, init_leaves_cover exampleV exampleEle (by decide)⟩

/-! ## The data-model invariant -/

theorem init_SI_invariant [NeZero DIM] (V : List (RowVectorDIMS DIM)) (Ele : List (Fin SS → Nat))
    (SI : Nat → Fin DIM → Nat) (fuel : Nat) (I : List Nat) (hne : I ≠ [])
    (hlen : I.length ≤ fuel) :
    (init_SI V Ele SI fuel I).invariant AABB.is_leaf ∧
    (init_SI V Ele SI fuel I).invariant AABB.has_primitive := by
  refine init_SI_induction V Ele SI
    (fun _ t => t.invariant AABB.is_leaf ∧ t.invariant AABB.has_primitive) ?_ ?_ fuel I hne hlen
  · intro e
    have h : (e : Int) ≠ -1 := by omega
    simp [AABB.invariant, AABB.toPtr, AABBPtr.all_nodes, node_invariant, AABB.is_leaf,
      AABB.has_primitive, AABBPtr.isNull, h]
  · intro I LI RI left right _ _ _ _ _ hl hr
    refine ⟨⟨?_, hl.1, hr.1⟩, ⟨?_, hl.2, hr.2⟩⟩
    · simp [node_invariant, AABB.is_leaf, AABB.toPtr, AABBPtr.isNull]
    · simp [node_invariant, AABB.has_primitive, AABB.toPtr, AABBPtr.isNull]

theorem init_SI_empty_or_invariant [NeZero DIM] (V : List (RowVectorDIMS DIM))
    (Ele : List (Fin SS → Nat)) (SI : Nat → Fin DIM → Nat) (I : List Nat) :
    init_SI V Ele SI I.length I = AABB.ctor ∨
    ((init_SI V Ele SI I.length I).invariant AABB.is_leaf ∧
     (init_SI V Ele SI I.length I).invariant AABB.has_primitive) := by
  cases hI : I with
  | nil => left; simp [init_SI]
  | cons a rest => right; exact init_SI_invariant V Ele SI _ _ (by simp) le_rfl

theorem init_serialized_rec_invariant (s : Serialized DIM) :
    ∀ (fuel i : Nat) (t : AABB DIM), init_serialized_rec s fuel i = some t →
      leaf_rows_nonneg s fuel i = true →
      t.invariant AABB.is_leaf ∧ t.invariant AABB.has_primitive := by
  intro fuel
  induction fuel with
  | zero => intro i t h; simp [init_serialized_rec] at h
  | succ fuel ih =>
    intro i t h hv
    rw [init_serialized_rec] at h
    rw [leaf_rows_nonneg] at hv
    cases hread : s.read i with
    | none => simp [hread] at h
    | some row =>
      obtain ⟨lo, hi, e⟩ := row
      simp only [hread] at h hv
      by_cases he : e = -1
      · simp only [he, if_true, Bool.and_eq_true] at h hv
        cases hL : init_serialized_rec s fuel (2 * i + 1) with
        | none => simp [hL] at h
        | some left =>
          cases hR : init_serialized_rec s fuel (2 * i + 2) with
          | none => simp [hL, hR] at h
          | some right =>
            simp only [hL, hR, Option.some.injEq] at h
            subst h
            have h1 := ih _ _ hL hv.1
            have h2 := ih _ _ hR hv.2
            refine ⟨⟨?_, h1.1, h2.1⟩, ⟨?_, h1.2, h2.2⟩⟩
            · simp [node_invariant, AABB.is_leaf, AABB.toPtr, AABBPtr.isNull]
            · simp [node_invariant, AABB.has_primitive, AABB.toPtr, AABBPtr.isNull]
      · simp only [he, if_false, Option.some.injEq, decide_eq_true_eq] at h hv
        subst h
        simp [AABB.invariant, AABB.toPtr, AABBPtr.all_nodes, node_invariant, AABB.is_leaf,
          AABB.has_primitive, AABBPtr.isNull, he, hv]

/-- Arrays all of whose element entries are element indices or the marker `-1`
satisfy the condition on the rows read as leaves, from every row and for every
recursion depth. -/
theorem leaf_rows_nonneg_of_entries (s : Serialized DIM) (hs : ∀ e ∈ s.elements, -1 ≤ e) :
    ∀ (fuel i : Nat), leaf_rows_nonneg s fuel i = true := by
  intro fuel
  induction fuel with
  | zero => intro i; rfl
  | succ fuel ih =>
    intro i
    rw [leaf_rows_nonneg]
    cases hread : s.read i with
    | none => rfl
    | some row =>
      obtain ⟨lo, hi, e⟩ := row
      have hmem : e ∈ s.elements := by
        unfold Serialized.read at hread
        cases h3 : s.elements[i]? with
        | none => rw [h3] at hread; split at hread <;> simp_all
        | some e2 =>
          rw [h3] at hread
          split at hread
          · simp only [Option.some.injEq, Prod.mk.injEq] at hread
            rename_i heq
            simp only [Option.some.injEq] at heq
            obtain ⟨_, _, rfl⟩ := hread
            rw [← heq]
            exact List.getElem?_mem h3
          · simp at hread
      have := hs e hmem
      by_cases he : e = -1
      · simp [he, ih]
      · simp only [he, if_false, decide_eq_true_eq]
        omega

/-- C6 (as stated, refuted). The default-constructed tree is a tree value the
operations produce, and for no notion of leaf does it satisfy the invariant:
both children are absent, yet its element index is `-1`.  Likewise `init`
from serialized arrays whose single row holds the element entry `-2` builds a
childless node with element index `-2`, which is not the empty tree and
satisfies the invariant for no notion of leaf. -/
theorem invariant_fails_at_ctor :
    Producible (AABB.ctor : AABB 2) ∧
    ¬ (AABB.ctor : AABB 2).invariant AABB.is_leaf ∧
    ¬ (AABB.ctor : AABB 2).invariant AABB.has_primitive ∧
    (∀ leaf : AABB 2 → Bool, ¬ (AABB.ctor : AABB 2).invariant leaf) ∧
    ∃ t : AABB 2, init_serialized exampleV exampleEle negativeEntry = some t ∧
      t ≠ AABB.ctor ∧ ∀ leaf : AABB 2 → Bool, ¬ t.invariant leaf := by
  have key : ∀ leaf : AABB 2 → Bool, ¬ (AABB.ctor : AABB 2).invariant leaf := by
    intro leaf h
    have h1 : node_invariant leaf (AABB.ctor : AABB 2) := h.1
    obtain ⟨ha, hb⟩ := h1
    have hleaf : leaf (AABB.ctor : AABB 2) = true := ha.2 ⟨rfl, rfl⟩
    have hneg : (0 : Int) ≤ (AABB.ctor : AABB 2).m_primitive := hb.2 hleaf
    exact absurd hneg (by decide)
  refine ⟨Producible.ctor, key _, key _, key,
    { m_left := .NULL, m_right := .NULL, m_box := .corners ![0, 0] ![1, 1], m_primitive := -2 },
    rfl, ?_, ?_⟩
  · intro h
    have := congrArg AABB.m_primitive h
    simp [AABB.ctor] at this
  · intro leaf h
    obtain ⟨ha, hb⟩ := h.1
    have hleaf := ha.2 ⟨rfl, rfl⟩
    have hneg : (0 : Int) ≤ -2 := hb.2 hleaf
    exact absurd hneg (by decide)

/-- C6 (amended). Every tree value the operations can produce (default
construction, copy, move, swap, assignment, `deinit`, and `init` from a mesh,
from a mesh with sort ranks and an active subset, or from serialized arrays
whose rows read as leaves hold non-negative element indices) is either the
empty tree, equal to a default-constructed `AABB` (no children, element index
`-1`, empty box), or satisfies the invariant at every node: the node is a leaf
iff both children are absent, and its element index is non-negative iff it is
a leaf.  This holds for both readings of "leaf": no children, and element
index other than `-1`. -/
theorem producible_invariant [NeZero DIM] (t : AABB DIM) (h : Producible t) :
    t = AABB.ctor ∨ (t.invariant AABB.is_leaf ∧ t.invariant AABB.has_primitive) := by
  induction h with
  | ctor => exact Or.inl rfl
  | copy_new _ ih => rw [AABB.copy_ctor_eq]; exact ih
  | copy_src _ ih => rw [AABB.copy_ctor_eq]; exact ih
  | move_new _ ih => rw [AABB.move_ctor_eq]; exact ih
  | move_src _ _ => exact Or.inl rfl
  | swap_first _ _ _ ihb => rw [swap_eq]; exact ihb
  | swap_second _ _ iha _ => rw [swap_eq]; exact iha
  | assign_lhs _ _ _ ihb => rw [AABB.assign_eq]; exact ihb
  | assign_rhs _ _ _ ihb => rw [AABB.assign_eq]; exact ihb
  | assign_self _ ih => rw [AABB.assign_self_eq]; exact ih
  | deinit _ _ => exact Or.inl rfl
  | init V Ele =>
    have := init_SI_empty_or_invariant V Ele (sort_ranks V Ele) (List.range Ele.length)
    simpa [init] using this
  | init_SI V Ele SI I => exact init_SI_empty_or_invariant V Ele SI I
  | init_serialized V Ele s t hv ht =>
    unfold igl.init_serialized at ht
    by_cases h0 : s.bb_mins.length = 0
    · simp only [h0, if_true, Option.some.injEq] at ht
      subst ht
      have := init_SI_empty_or_invariant V Ele (sort_ranks V Ele) (List.range Ele.length)
      simpa [init] using this
    · simp only [h0, if_false] at ht
      exact Or.inr (init_serialized_rec_invariant s _ _ t ht hv)
  | init_serialized_at s i t hv ht =>
    exact Or.inr (init_serialized_rec_invariant s _ _ t ht hv)

/-- The invariant theorem applied to the tree built over the example mesh. -/
theorem producible_invariant_witness :
    Producible (init exampleV exampleEle) ∧
    (init exampleV exampleEle = AABB.ctor ∨
      ((init exampleV exampleEle).invariant AABB.is_leaf ∧
       (init exampleV exampleEle).invariant AABB.has_primitive)) :=
  ⟨Producible.init exampleV exampleEle,
   producible_invariant (init exampleV exampleEle) (Producible.init exampleV exampleEle)⟩

/-! ## Boxes -/

theorem AlignedBox.contains_corners_iff (lo hi p : RowVectorDIMS DIM) :
    (AlignedBox.corners lo hi).contains p = true ↔ ∀ d, lo d ≤ p d ∧ p d ≤ hi d := by
  simp [AlignedBox.contains, List.all_eq_true]

theorem AlignedBox.contains_extend_self (b : AlignedBox DIM) (v : RowVectorDIMS DIM) :
    (b.extend v).contains v = true := by
  cases b with
  | empty => simp [AlignedBox.extend, AlignedBox.contains_corners_iff]
  | corners lo hi => simp [AlignedBox.extend, AlignedBox.contains_corners_iff]

theorem AlignedBox.contains_extend_of_contains (b : AlignedBox DIM) (v p : RowVectorDIMS DIM)
    (h : b.contains p = true) : (b.extend v).contains p = true := by
  cases b with
  | empty => simp [AlignedBox.contains] at h
  | corners lo hi =>
    rw [AlignedBox.contains_corners_iff] at h
    simp only [AlignedBox.extend, AlignedBox.contains_corners_iff]
    intro d
    exact ⟨min_le_of_left_le (h d).1, le_max_of_le_left (h d).2⟩

theorem AlignedBox.contains_foldl_extend_of_contains (vs : List (RowVectorDIMS DIM))
    (b : AlignedBox DIM) (p : RowVectorDIMS DIM) (h : b.contains p = true) :
    (vs.foldl AlignedBox.extend b).contains p = true := by
  induction vs generalizing b with
  | nil => exact h
  | cons v vs ih => exact ih _ (AlignedBox.contains_extend_of_contains b v p h)

theorem AlignedBox.contains_foldl_extend_of_mem (vs : List (RowVectorDIMS DIM))
    (b : AlignedBox DIM) (v : RowVectorDIMS DIM) (h : v ∈ vs) :
    (vs.foldl AlignedBox.extend b).contains v = true := by
  induction vs generalizing b with
  | nil => simp at h
  | cons w vs ih =>
    rcases List.mem_cons.1 h with rfl | h
    · exact AlignedBox.contains_foldl_extend_of_contains vs _ _
        (AlignedBox.contains_extend_self b _)
    · exact ih _ h

theorem AlignedBox.contains_merged_left (a b : AlignedBox DIM) (p : RowVectorDIMS DIM)
    (h : a.contains p = true) : (a.merged b).contains p = true := by
  cases a with
  | empty => simp [AlignedBox.contains] at h
  | corners lo hi =>
    cases b with
    | empty => exact h
    | corners lo2 hi2 =>
      rw [AlignedBox.contains_corners_iff] at h
      simp only [AlignedBox.merged, AlignedBox.contains_corners_iff]
      intro d
      exact ⟨min_le_of_left_le (h d).1, le_max_of_le_left (h d).2⟩

theorem AlignedBox.contains_merged_right (a b : AlignedBox DIM) (p : RowVectorDIMS DIM)
    (h : b.contains p = true) : (a.merged b).contains p = true := by
  cases a with
  | empty => exact h
  | corners lo hi =>
    cases b with
    | empty => simp [AlignedBox.contains] at h
    | corners lo2 hi2 =>
      rw [AlignedBox.contains_corners_iff] at h
      simp only [AlignedBox.merged, AlignedBox.contains_corners_iff]
      intro d
      exact ⟨min_le_of_right_le (h d).1, le_max_of_le_right (h d).2⟩

theorem element_box_encloses (V : List (RowVectorDIMS DIM)) (Ele : List (Fin SS → Nat))
    (e : Nat) : encloses V Ele (element_box V Ele e) e :=
  fun v hv => AlignedBox.contains_foldl_extend_of_mem _ _ v hv

/-! ## Shape of the leaves -/

theorem AABBPtr.leaves_of_leaf (l r : AABBPtr DIM) (b : AlignedBox DIM) (e : Int)
    (h : (l.isNull && r.isNull) = true) : (AABBPtr.obj l r b e).leaves = [e] := by
  cases l <;> cases r <;> simp_all [AABBPtr.isNull, AABBPtr.leaves]

theorem AABBPtr.leaves_of_inner (l r : AABBPtr DIM) (b : AlignedBox DIM) (e : Int)
    (h : (l.isNull && r.isNull) = false) :
    (AABBPtr.obj l r b e).leaves = l.leaves ++ r.leaves := by
  cases l <;> cases r <;> simp_all [AABBPtr.isNull, AABBPtr.leaves]

theorem AABBPtr.all_nodes_root {P : AABB DIM → Prop} (t : AABB DIM)
    (h : t.toPtr.all_nodes P) : P t := h.1

theorem init_SI_box_covers [NeZero DIM] (V : List (RowVectorDIMS DIM))
    (Ele : List (Fin SS → Nat)) (SI : Nat → Fin DIM → Nat) (q : RowVectorDIMS DIM)
    (fuel : Nat) (I : List Nat) (hne : I ≠ []) (hlen : I.length ≤ fuel) :
    (init_SI V Ele SI fuel I).toPtr.all_nodes (box_covers V Ele q) := by
  refine init_SI_induction V Ele SI (fun _ t => t.toPtr.all_nodes (box_covers V Ele q))
    ?_ ?_ fuel I hne hlen
  · intro e
    refine ⟨?_, trivial, trivial⟩
    intro e2 he2 hq
    simp only [AABB.leaves, AABB.toPtr, AABBPtr.leaves, List.mem_singleton, Nat.cast_inj]
      at he2
    subst he2
    exact hq
  · intro I LI RI left right _ _ _ _ _ hl hr
    refine ⟨?_, hl, hr⟩
    intro e he hq
    have he2 : (e : Int) ∈ left.leaves ++ right.leaves := by
      rw [← AABBPtr.leaves_toPtr_node left right (left.m_box.merged right.m_box) (-1)]
      exact he
    rcases List.mem_append.1 he2 with h | h
    · exact AlignedBox.contains_merged_left _ _ _ (AABBPtr.all_nodes_root left hl e h hq)
    · exact AlignedBox.contains_merged_right _ _ _ (AABBPtr.all_nodes_root right hr e h hq)

theorem init_box_covers [NeZero DIM] (V : List (RowVectorDIMS DIM))
    (Ele : List (Fin SS → Nat)) (q : RowVectorDIMS DIM) :
    (init V Ele).toPtr.all_nodes (box_covers V Ele q) := by
  cases hE : Ele with
  | nil =>
    refine ⟨?_, trivial, trivial⟩
    intro e he
    simp [init, init_SI, AABB.ctor, AABB.leaves, AABB.toPtr, AABBPtr.leaves] at he
  | cons a rest =>
    apply init_SI_box_covers
    · simp [List.range_succ_eq_map]
    · simp

/-! ## Containment query -/

theorem AABBPtr.box_obj (l r : AABBPtr DIM) (b : AlignedBox DIM) (e : Int) :
    (AABBPtr.obj l r b e).box = b := rfl

theorem AABBPtr.mem_find_of_mem_leaves (V : List (RowVectorDIMS DIM))
    (Ele : List (Fin SS → Nat)) (in_element : Int → Bool) (q : RowVectorDIMS DIM) (e : Nat)
    (horacle : in_element (e : Int) = true)
    (hbox : (element_box V Ele e).contains q = true) :
    ∀ p : AABBPtr DIM, p.all_nodes (box_covers V Ele q) → (e : Int) ∈ p.leaves →
      (e : Int) ∈ p.find in_element q false := by
  intro p
  induction p with
  | NULL => intro _ h; simp [AABBPtr.leaves] at h
  | obj l r b x ihl ihr =>
    intro hall hmem
    obtain ⟨_, hl, hr⟩ := hall
    cases hleaf : (l.isNull && r.isNull) with
    | true =>
      rw [AABBPtr.leaves_of_leaf l r b x hleaf] at hmem
      have hx : x = (e : Int) := (List.mem_singleton.1 hmem).symm
      subst hx
      simp [AABBPtr.find, hleaf, horacle]
    | false =>
      rw [AABBPtr.leaves_of_inner l r b x hleaf] at hmem
      simp only [AABBPtr.find, hleaf, Bool.false_and, Bool.false_eq_true, if_false]
      rcases List.mem_append.1 hmem with h | h
      · have hc : l.box.contains q = true := by
          cases l with
          | NULL => simp [AABBPtr.leaves] at h
          | obj l1 l2 lb le => exact hl.1 e h hbox
        simp only [hc, if_true]
        exact List.mem_append_left _ (ihl hl h)
      · have hc : r.box.contains q = true := by
          cases r with
          | NULL => simp [AABBPtr.leaves] at h
          | obj r1 r2 rb re => exact hr.1 e h hbox
        simp only [hc, if_true]
        exact List.mem_append_right _ (ihr hr h)

/-- C5 (amended). Containment soundness: for the tree built by `init` over a
mesh `(V, Ele)`, every element `e` of `Ele` and every point `q` for which the
point-in-simplex oracle reports that `e` contains `q` and which lies in the
bounding box of the vertices of `e`, the list returned by
`find(V, Ele, q, first=false)` includes `e`. -/
theorem find_includes_element [NeZero DIM]
    (point_in_simplex : List (RowVectorDIMS DIM) → List (Fin SS → Nat) → Int →
      RowVectorDIMS DIM → Bool)
    (V : List (RowVectorDIMS DIM)) (Ele : List (Fin SS → Nat)) (e : Nat) (q : RowVectorDIMS DIM)
    (he : e < Ele.length)
    (horacle : point_in_simplex V Ele (e : Int) q = true)
    (hbox : (element_box V Ele e).contains q = true) :
    (e : Int) ∈ (init V Ele).find point_in_simplex V Ele q false := by
  have hm : 1 ≤ Ele.length := by omega
  have hmem : (e : Int) ∈ (init V Ele).leaves := by
    apply (init_leaves V Ele hm).symm.subset
    simp only [List.mem_map, List.mem_range]
    exact ⟨e, he, rfl⟩
  exact AABBPtr.mem_find_of_mem_leaves V Ele (fun x => point_in_simplex V Ele x q) q e horacle
    hbox _ (init_box_covers V Ele q) hmem

/-- The containment theorem applied to the example mesh, the exact triangle test and a
point inside the first triangle. -/
theorem find_includes_element_witness :
    0 < exampleEle.length ∧
    tolerant_in_triangle 0 exampleV exampleEle ((0 : Nat) : Int) ![1/4, 1/4] = true ∧
    (element_box exampleV exampleEle 0).contains ![1/4, 1/4] = true ∧
    ((0 : Nat) : Int) ∈ (init exampleV exampleEle).find (tolerant_in_triangle 0)
      exampleV exampleEle ![1/4, 1/4] false :=
  ⟨by decide, by decide!, by decide!,
   find_includes_element (tolerant_in_triangle 0) exampleV exampleEle 0 ![1/4, 1/4]
     (by decide) (by decide!) (by decide!)⟩

/-- C5 (as stated, refuted). In the example mesh, a point just outside the
left edge of the first triangle: an oracle with tolerance `1/100` reports that
the triangle contains it, but the point is outside the triangle's bounding
box, the query does not descend to the leaf and `find` returns nothing. -/
theorem find_misses_reported_element :
    (0 : Nat) < exampleEle.length ∧
    tolerant_in_triangle (1/100) exampleV exampleEle ((0 : Nat) : Int) ![-1/1000, 1/2] = true ∧
    ((0 : Nat) : Int) ∉ (init exampleV exampleEle).find (tolerant_in_triangle (1/100))
      exampleV exampleEle ![-1/1000, 1/2] false := by
  refine ⟨by decide, by decide!, by decide!⟩

/-! ## Squared distance query -/

theorem Tracks.nil (o : Int → WithTop Scalar × RowVectorDIMS DIM) (b : WithTop Scalar) :
    Tracks o [] b b :=
  ⟨le_rfl, fun _ h => by simp at h, Or.inl rfl⟩

theorem Tracks.append_skip {o : Int → WithTop Scalar × RowVectorDIMS DIM} {l1 l2 : List Int}
    {b r : WithTop Scalar} (h1 : Tracks o l1 b r) (h2 : ∀ x ∈ l2, r ≤ (o x).1) :
    Tracks o (l1 ++ l2) b r ∧ Tracks o (l2 ++ l1) b r := by
  obtain ⟨ha, hb, hc⟩ := h1
  refine ⟨⟨ha, ?_, ?_⟩, ⟨ha, ?_, ?_⟩⟩
  · intro x hx
    rcases List.mem_append.1 hx with h | h
    · exact hb x h
    · exact h2 x h
  · rcases hc with h | ⟨x, hx, h⟩
    · exact Or.inl h
    · exact Or.inr ⟨x, List.mem_append_left _ hx, h⟩
  · intro x hx
    rcases List.mem_append.1 hx with h | h
    · exact h2 x h
    · exact hb x h
  · rcases hc with h | ⟨x, hx, h⟩
    · exact Or.inl h
    · exact Or.inr ⟨x, List.mem_append_right _ hx, h⟩

theorem Tracks.append_visit {o : Int → WithTop Scalar × RowVectorDIMS DIM} {l1 l2 : List Int}
    {b r1 r2 : WithTop Scalar} (h1 : Tracks o l1 b r1) (h2 : Tracks o l2 r1 r2) :
    Tracks o (l1 ++ l2) b r2 ∧ Tracks o (l2 ++ l1) b r2 := by
  obtain ⟨ha, hb, hc⟩ := h1
  obtain ⟨ha2, hb2, hc2⟩ := h2
  have hall1 : ∀ x ∈ l1, r2 ≤ (o x).1 := fun x hx => le_trans ha2 (hb x hx)
  have hex : r2 = b ∨ (∃ x ∈ l1, r2 = (o x).1) ∨ ∃ x ∈ l2, r2 = (o x).1 := by
    rcases hc2 with h | h
    · rcases hc with h3 | ⟨x, hx, h3⟩
      · exact Or.inl (h.trans h3)
      · exact Or.inr (Or.inl ⟨x, hx, h.trans h3⟩)
    · exact Or.inr (Or.inr h)
  refine ⟨⟨le_trans ha2 ha, ?_, ?_⟩, ⟨le_trans ha2 ha, ?_, ?_⟩⟩
  · intro x hx
    rcases List.mem_append.1 hx with h | h
    · exact hall1 x h
    · exact hb2 x h
  · rcases hex with h | ⟨x, hx, h⟩ | ⟨x, hx, h⟩
    · exact Or.inl h
    · exact Or.inr ⟨x, List.mem_append_left _ hx, h⟩
    · exact Or.inr ⟨x, List.mem_append_right _ hx, h⟩
  · intro x hx
    rcases List.mem_append.1 hx with h | h
    · exact hb2 x h
    · exact hall1 x h
  · rcases hex with h | ⟨x, hx, h⟩ | ⟨x, hx, h⟩
    · exact Or.inl h
    · exact Or.inr ⟨x, List.mem_append_right _ hx, h⟩
    · exact Or.inr ⟨x, List.mem_append_left _ hx, h⟩

theorem set_min_tracks (o : Int → WithTop Scalar × RowVectorDIMS DIM) (e : Int)
    (best : Best DIM) :
    Tracks o [e] best.sqr_d (leaf_squared_distance o e best).sqr_d := by
  unfold leaf_squared_distance set_min
  by_cases h : (o e).1 < best.sqr_d
  · simp only [h, if_true]
    exact ⟨le_of_lt h, fun x hx => by rw [List.mem_singleton.1 hx],
      Or.inr ⟨e, List.mem_singleton.2 rfl, rfl⟩⟩
  · simp only [h, if_false]
    exact ⟨le_rfl, fun x hx => by rw [List.mem_singleton.1 hx]; exact not_lt.1 h, Or.inl rfl⟩

theorem AABBPtr.box_le_of_bound_ok (o : Int → WithTop Scalar × RowVectorDIMS DIM)
    (p : RowVectorDIMS DIM) (q : AABBPtr DIM) (h : q.all_nodes (bound_ok o p)) :
    ∀ x ∈ q.leaves, q.box.squaredExteriorDistance p ≤ (o x).1 := by
  cases q with
  | NULL => intro x hx; simp [AABBPtr.leaves] at hx
  | obj l r b e => exact h.1

theorem AABBPtr.squared_distance_tracks (o : Int → WithTop Scalar × RowVectorDIMS DIM)
    (p : RowVectorDIMS DIM) :
    ∀ (q : AABBPtr DIM), q.all_nodes (bound_ok o p) → ∀ best : Best DIM,
      Tracks o q.leaves best.sqr_d (q.squared_distance o p best).sqr_d := by
  intro q
  induction q with
  | NULL => intro _ best; exact Tracks.nil o _
  | obj l r b e ihl ihr =>
    intro hall best
    obtain ⟨_, hl, hr⟩ := hall
    cases hleaf : (l.isNull && r.isNull) with
    | true =>
      rw [AABBPtr.leaves_of_leaf l r b e hleaf]
      simp only [AABBPtr.squared_distance, hleaf, if_true]
      exact set_min_tracks o e best
    | false =>
      rw [AABBPtr.leaves_of_inner l r b e hleaf]
      simp only [AABBPtr.squared_distance, hleaf, Bool.false_eq_true, if_false]
      by_cases horder : l.box.squaredExteriorDistance p ≤ r.box.squaredExteriorDistance p
      · simp only [horder, if_true]
        have h1 := ihl hl best
        by_cases hprune : (l.squared_distance o p best).sqr_d ≤ r.box.squaredExteriorDistance p
        · simp only [hprune, if_true]
          exact (h1.append_skip (fun x hx =>
            le_trans hprune (AABBPtr.box_le_of_bound_ok o p r hr x hx))).1
        · simp only [hprune, if_false]
          exact (h1.append_visit (ihr hr _)).1
      · simp only [horder, if_false]
        have h1 := ihr hr best
        by_cases hprune : (r.squared_distance o p best).sqr_d ≤ l.box.squaredExteriorDistance p
        · simp only [hprune, if_true]
          exact (h1.append_skip (fun x hx =>
            le_trans hprune (AABBPtr.box_le_of_bound_ok o p l hl x hx))).2
        · simp only [hprune, if_false]
          exact (h1.append_visit (ihl hl _)).2

theorem AABBPtr.all_nodes_mono {P Q : AABB DIM → Prop} (h : ∀ n, P n → Q n) :
    ∀ q : AABBPtr DIM, q.all_nodes P → q.all_nodes Q := by
  intro q
  induction q with
  | NULL => intro _; trivial
  | obj l r b e ihl ihr => intro hq; exact ⟨h _ hq.1, ihl hq.2.1, ihr hq.2.2⟩

theorem init_SI_leaves_enclosed [NeZero DIM] (V : List (RowVectorDIMS DIM))
    (Ele : List (Fin SS → Nat)) (SI : Nat → Fin DIM → Nat) (m : Nat)
    (fuel : Nat) (I : List Nat) (hne : I ≠ []) (hlen : I.length ≤ fuel)
    (hI : ∀ e ∈ I, e < m) :
    (init_SI V Ele SI fuel I).toPtr.all_nodes (leaves_enclosed V Ele m) := by
  refine init_SI_induction V Ele SI
    (fun I t => (∀ e ∈ I, e < m) → t.toPtr.all_nodes (leaves_enclosed V Ele m))
    ?_ ?_ fuel I hne hlen hI
  · intro e he
    refine ⟨?_, trivial, trivial⟩
    intro x hx
    simp only [AABB.leaves, AABB.toPtr, AABBPtr.leaves, List.mem_singleton] at hx
    exact ⟨e, he e (List.mem_singleton.2 rfl), hx, element_box_encloses V Ele e⟩
  · intro I LI RI left right _ hperm _ _ _ hl hr hI
    have hLI : ∀ e ∈ LI, e < m := fun e he => hI e (hperm.subset (List.mem_append_left _ he))
    have hRI : ∀ e ∈ RI, e < m := fun e he => hI e (hperm.subset (List.mem_append_right _ he))
    refine ⟨?_, hl hLI, hr hRI⟩
    intro x hx
    have hx2 : x ∈ left.leaves ++ right.leaves := by
      rw [← AABBPtr.leaves_toPtr_node left right (left.m_box.merged right.m_box) (-1)]
      exact hx
    rcases List.mem_append.1 hx2 with h | h
    · obtain ⟨e, he, hxe, henc⟩ := AABBPtr.all_nodes_root left (hl hLI) x h
      exact ⟨e, he, hxe, fun v hv => AlignedBox.contains_merged_left _ _ _ (henc v hv)⟩
    · obtain ⟨e, he, hxe, henc⟩ := AABBPtr.all_nodes_root right (hr hRI) x h
      exact ⟨e, he, hxe, fun v hv => AlignedBox.contains_merged_right _ _ _ (henc v hv)⟩

theorem init_leaves_enclosed [NeZero DIM] (V : List (RowVectorDIMS DIM))
    (Ele : List (Fin SS → Nat)) (hm : 1 ≤ Ele.length) :
    (init V Ele).toPtr.all_nodes (leaves_enclosed V Ele Ele.length) := by
  apply init_SI_leaves_enclosed
  · intro h
    have := congrArg List.length h
    simp only [List.length_range, List.length_nil] at this
    omega
  · simp
  · intro e he
    exact List.mem_range.1 he

/-- C1. Nearest-point correctness: for a mesh with at least one element, the
tree built by `init` and any query point `p`, if the oracle's value for an
element is never below the squared distance from `p` to a box enclosing that
element, then the squared distance returned by `squared_distance(V,Ele,p,i,c)`
is the minimum over all elements of the oracle's point-to-simplex squared
distance: it is attained at some element and is at most the value at every
element. -/
theorem squared_distance_is_minimum [NeZero DIM]
    (oracle : List (RowVectorDIMS DIM) → List (Fin SS → Nat) → Int → RowVectorDIMS DIM →
      WithTop Scalar × RowVectorDIMS DIM)
    (V : List (RowVectorDIMS DIM)) (Ele : List (Fin SS → Nat)) (p : RowVectorDIMS DIM)
    (i : Int) (c : RowVectorDIMS DIM) (hm : 1 ≤ Ele.length)
    (horacle : ∀ e : Nat, e < Ele.length → ∀ B : AlignedBox DIM, encloses V Ele B e →
      B.squaredExteriorDistance p ≤ (oracle V Ele (e : Int) p).1) :
    (∃ e : Nat, e < Ele.length ∧
      ((init V Ele).squared_distance oracle V Ele p i c).1 = (oracle V Ele (e : Int) p).1) ∧
    (∀ e : Nat, e < Ele.length →
      ((init V Ele).squared_distance oracle V Ele p i c).1 ≤ (oracle V Ele (e : Int) p).1) := by
  have henc := init_leaves_enclosed V Ele hm
  have hleaves := init_leaves V Ele hm
  have hmem : ∀ e : Nat, e < Ele.length → (e : Int) ∈ (init V Ele).leaves := by
    intro e he
    apply hleaves.symm.subset
    simp only [List.mem_map, List.mem_range]
    exact ⟨e, he, rfl⟩
  have hok : (init V Ele).toPtr.all_nodes (bound_ok (fun e => oracle V Ele e p) p) := by
    refine AABBPtr.all_nodes_mono ?_ _ henc
    intro n hn x hx
    obtain ⟨e, he, hxe, he2⟩ := hn x hx
    subst hxe
    exact horacle e he _ he2
  have hroot : ∀ e : Nat, e < Ele.length →
      (init V Ele).m_box.squaredExteriorDistance p ≤ (oracle V Ele (e : Int) p).1 :=
    fun e he => AABBPtr.all_nodes_root _ hok _ (hmem e he)
  unfold AABB.squared_distance AABB.squared_distance_bounded
  by_cases hprune : (⊤ : WithTop Scalar) ≤ (init V Ele).m_box.squaredExteriorDistance p
  · simp only [hprune, if_true]
    have htop : ∀ e : Nat, e < Ele.length → (oracle V Ele (e : Int) p).1 = ⊤ :=
      fun e he => top_le_iff.1 (le_trans hprune (hroot e he))
    exact ⟨⟨0, hm, (htop 0 hm).symm⟩, fun e he => by rw [htop e he]⟩
  · simp only [hprune, if_false]
    obtain ⟨_, hall, hex⟩ := AABBPtr.squared_distance_tracks (fun e => oracle V Ele e p) p
      (init V Ele).toPtr hok { sqr_d := ⊤, i := i, c := c }
    have hall2 : ∀ e : Nat, e < Ele.length →
        ((init V Ele).toPtr.squared_distance (fun e => oracle V Ele e p) p
          { sqr_d := ⊤, i := i, c := c }).sqr_d ≤ (oracle V Ele (e : Int) p).1 :=
      fun e he => hall _ (hmem e he)
    refine ⟨?_, hall2⟩
    rcases hex with h | ⟨x, hx, h⟩
    · refine ⟨0, hm, ?_⟩
      have h0 := hall2 0 hm
      rw [h] at h0 ⊢
      exact (top_le_iff.1 h0).symm
    · have := hleaves.subset hx
      simp only [List.mem_map, List.mem_range] at this
      obtain ⟨e, he, rfl⟩ := this
      exact ⟨e, he, h⟩

theorem exterior_gap_le (lo hi x v : Scalar) (h1 : lo ≤ v) (h2 : v ≤ hi) :
    exterior_gap lo hi x ≤ (x - v) ^ 2 := by
  unfold exterior_gap
  split_ifs with ha hb
  · nlinarith
  · nlinarith
  · positivity

theorem AlignedBox.squaredExteriorDistance_le_of_contains (B : AlignedBox DIM)
    (p v : RowVectorDIMS DIM) (h : B.contains v = true) :
    B.squaredExteriorDistance p ≤
      ((((List.finRange DIM).map (fun d => (p d - v d) ^ 2)).sum : Scalar) : WithTop Scalar) := by
  cases B with
  | empty => simp [AlignedBox.contains] at h
  | corners lo hi =>
    rw [AlignedBox.contains_corners_iff] at h
    simp only [AlignedBox.squaredExteriorDistance, WithTop.coe_le_coe]
    apply List.sum_le_sum
    intro d _
    exact exterior_gap_le _ _ _ _ (h d).1 (h d).2

theorem point_squared_distance_ok [NeZero SS] (V : List (RowVectorDIMS DIM))
    (Ele : List (Fin SS → Nat)) (p : RowVectorDIMS DIM) (e : Nat) (B : AlignedBox DIM)
    (h : encloses V Ele B e) :
    B.squaredExteriorDistance p ≤ (point_squared_distance V Ele (e : Int) p).1 := by
  apply AlignedBox.squaredExteriorDistance_le_of_contains
  apply h
  simp only [Int.toNat_ofNat, element_vertices, List.mem_map]
  exact ⟨0, List.mem_finRange _, rfl⟩

/-- The nearest-point theorem applied to the mesh of four points with the exact
point-to-point squared distance as oracle. -/
theorem squared_distance_is_minimum_witness :
    1 ≤ pointsEle.length ∧
    (∀ e : Nat, e < pointsEle.length → ∀ B : AlignedBox 2, encloses pointsV pointsEle B e →
      B.squaredExteriorDistance ![3, 1] ≤
        (point_squared_distance pointsV pointsEle (e : Int) ![3, 1]).1) ∧
    ((∃ e : Nat, e < pointsEle.length ∧
      ((init pointsV pointsEle).squared_distance point_squared_distance pointsV pointsEle
        ![3, 1] 0 ![0, 0]).1 = (point_squared_distance pointsV pointsEle (e : Int) ![3, 1]).1) ∧
    (∀ e : Nat, e < pointsEle.length →
      ((init pointsV pointsEle).squared_distance point_squared_distance pointsV pointsEle
        ![3, 1] 0 ![0, 0]).1 ≤ (point_squared_distance pointsV pointsEle (e : Int) ![3, 1]).1)) :=
  ⟨by decide,
   fun e _ B h => point_squared_distance_ok pointsV pointsEle ![3, 1] e B h,
   squared_distance_is_minimum point_squared_distance pointsV pointsEle ![3, 1] 0 ![0, 0]
     (by decide)
     (fun e _ B h => point_squared_distance_ok pointsV pointsEle ![3, 1] e B h)⟩

/-! ## Serialization -/

theorem init_serialized_rec_fuel (s : Serialized DIM) :
    ∀ (fuel i : Nat), s.elements.length ≤ i + fuel →
      init_serialized_rec s (fuel + 1) i = init_serialized_rec s fuel i := by
  intro fuel
  induction fuel with
  | zero =>
    intro i hi
    have : s.elements[i]? = none := List.getElem?_eq_none (by omega)
    have hread : s.read i = none := by
      simp only [Serialized.read, this]
      split <;> simp_all
    simp [init_serialized_rec, hread]
  | succ fuel ih =>
    intro i hi
    rw [init_serialized_rec, ih (2 * i + 1) (by omega), ih (2 * i + 2) (by omega)]
    conv_rhs => rw [init_serialized_rec]

/-- Containment queries on the example mesh: the centroid of the first triangle, a
point on the shared edge (all matches and first match), and a point in no triangle. -/
theorem find_example :
    (init exampleV exampleEle).find (tolerant_in_triangle 0) exampleV exampleEle
      ![1/3, 1/3] false = [0] ∧
    (init exampleV exampleEle).find (tolerant_in_triangle 0) exampleV exampleEle
      ![1/2, 1/2] false = [0, 1] ∧
    (init exampleV exampleEle).find (tolerant_in_triangle 0) exampleV exampleEle
      ![1/2, 1/2] true = [0] ∧
    (init exampleV exampleEle).find (tolerant_in_triangle 0) exampleV exampleEle
      ![3, 3] false = [] := by
  refine ⟨by decide!, by decide!, by decide!, by decide!⟩

/-- Nearest point of the point mesh to `(3,1)`: element `1` at `(4,0)`, squared
distance `2`. -/
theorem squared_distance_example :
    (init pointsV pointsEle).squared_distance point_squared_distance pointsV pointsEle
      ![3, 1] 0 ![0, 0] = (((2 : Scalar) : WithTop Scalar), 1, ![4, 0]) := by
  decide!

/-- The element array of the serialized example tree: the root and its left child are
internal, the leaves sit in rows `2`, `3`, `4`, the other rows are never written. -/
theorem serialize_example :
    ((init exampleV exampleEle).serialize exampleUnspecified).map Serialized.elements =
      some [-1, -1, 2, 0, 1, 42, 42, 42, 42, 42, 42, 42, 42, 42, 42, 42] := by
  decide!

/-- Rebuilding from the three-row example arrays gives a root with two leaves, a
tree value the operations produce. -/
theorem init_serialized_example :
    init_serialized exampleV exampleEle exampleSerialized =
      some { m_left := .obj .NULL .NULL (.corners ![0, 0] ![1, 1]) 1,
             m_right := .obj .NULL .NULL (.corners ![2, 0] ![3, 1]) 0,
             m_box := .corners ![0, 0] ![3, 1],
             m_primitive := -1 } ∧
    ∀ t : AABB 2, init_serialized exampleV exampleEle exampleSerialized = some t →
      Producible t := by
  refine ⟨rfl, fun t ht => Producible.init_serialized exampleV exampleEle exampleSerialized t
    (leaf_rows_nonneg_of_entries _ (by decide) _ _) ht⟩

end igl
